import Mathlib

/-!
Verification of the Copy-FolderTree core (tree builder, tree pruner, tree
renderer), shallowly embedded from the TypeScript source of the extension
(the complete variant containing `buildTree`, `buildPrunedTree`, `findPath`,
`findLowestCommonAncestor`, `pruneChildren`, `deepCloneTree`, `isRelevant`,
`isAncestorOrSelf` and `renderTree`).

Modelling conventions:
- The filesystem read by `buildTree` (`fs.statSync` / `fs.readdirSync`) is
  modelled as an explicit input value `FsEntry` (a file or a directory with
  an ordered list of entries), walked in enumeration order.
- Paths are POSIX-style strings with `/` separators.  `path.join`,
  `path.basename`, `path.normalize` and `path.relative` are modelled for
  clean paths (no `.` / `..` segments), segment by segment, matching Node's
  behaviour on such inputs; `rel.startsWith('..')` is modelled by inspecting
  the first two characters of the relative path.
- `new RegExp(pattern.replace('*', '.*')).test(s)` is modelled by an
  executable backtracking matcher over the regex subset actually generated
  by the code: literal characters, `.` (any character) and postfix `*`
  (zero or more repetitions of the previous atom), tested unanchored
  (a match starting at any position of the string suffices).
  `String.prototype.replace` with a string argument replaces only the
  first occurrence, which `replaceFirstStarL` reproduces.
- JavaScript mutation of freshly cloned nodes is modelled by pure
  structural reconstruction: the in-place `pruneChildren` of the source
  only ever writes to nodes reachable from its argument, which
  `buildPrunedTree` always passes as a `deepCloneTree` copy.
-/

namespace FolderTree

/-- A filesystem entry, the external input of the tree builder: either a
file or a directory with an ordered list of entries (the order
`fs.readdirSync` enumerates them in). -/
inductive FsEntry where
  | file (nm : String)
  | dir (nm : String) (entries : List FsEntry)

/-- The bare name of a filesystem entry, as returned by `fs.readdirSync`. -/
def FsEntry.name : FsEntry → String
  | .file n => n
  | .dir n _ => n

/-- The `TreeNode` interface of the source: `name`, `fullPath` and an
optional `children` array (`children?: TreeNode[]`). -/
inductive TreeNode where
  | mk (nm : String) (fp : String) (ch : Option (List TreeNode))

/-- The `name` field of a `TreeNode`. -/
def TreeNode.name : TreeNode → String
  | .mk n _ _ => n

/-- The `fullPath` field of a `TreeNode`. -/
def TreeNode.fullPath : TreeNode → String
  | .mk _ p _ => p

/-- The `children` field of a `TreeNode` (`none` models an absent field). -/
def TreeNode.children : TreeNode → Option (List TreeNode)
  | .mk _ _ c => c

/-! ### Path helpers (`path.join`, `path.basename`, `path.normalize`,
`path.relative`), modelled for clean POSIX paths. -/

/-- Split a character list on `/`, accumulating the current segment. -/
def splitSlashAux : List Char → List Char → List String
  | [], acc => [String.mk acc.reverse]
  | c :: cs, acc =>
    if c = '/' then String.mk acc.reverse :: splitSlashAux cs []
    else splitSlashAux cs (c :: acc)

/-- The nonempty `/`-separated segments of a path. -/
def pathSegments (p : String) : List String :=
  (splitSlashAux p.data []).filter (fun s => if s = "" then false else true)

/-- `path.join(a, b)` for a clean directory path and a bare entry name. -/
def pathJoin (a b : String) : String := a ++ "/" ++ b

/-- Join segments with `/` separators. -/
def joinSegs : List String → String
  | [] => ""
  | [s] => s
  | s :: rest => s ++ "/" ++ joinSegs rest

/-- `path.basename`: the last nonempty segment, or `""` for e.g. `"/"`. -/
def pathBasename (p : String) : String := (pathSegments p).getLastD ""

/-- The `path.basename(dirPath) || dirPath` idiom of the source: fall back
to the whole path when the basename is the empty string. -/
def basenameOr (p : String) : String :=
  let b := pathBasename p
  if b = "" then p else b

/-- Whether a path starts with `/`. -/
def isAbsolute (p : String) : Bool :=
  match p.data with
  | '/' :: _ => true
  | _ => false

/-- `path.normalize` for clean paths: canonical segment joining (Node
returns `"."` for the empty relative path). -/
def pathNormalize (p : String) : String :=
  if isAbsolute p then "/" ++ joinSegs (pathSegments p)
  else
    match pathSegments p with
    | [] => "."
    | s :: rest => joinSegs (s :: rest)

/-- Drop the longest common prefix of two segment lists, returning the two
remainders. -/
def dropCommonPrefix : List String → List String → List String × List String
  | x :: xs, y :: ys =>
    if x = y then dropCommonPrefix xs ys else (x :: xs, y :: ys)
  | xs, ys => (xs, ys)

/-- `path.relative(f, t)` for clean absolute paths: one `..` per remaining
segment of `f` after the common prefix, followed by the remaining segments
of `t`. -/
def pathRelative (f t : String) : String :=
  let r := dropCommonPrefix (pathSegments f) (pathSegments t)
  joinSegs (List.replicate r.1.length ".." ++ r.2)

/-- `s.startsWith('..')`: the first two characters are both `.`. -/
def startsWithDotDot (s : String) : Bool :=
  match s.data with
  | '.' :: '.' :: _ => true
  | _ => false

/-- `isAncestorOrSelf` from the source: `possibleAncestor` is an ancestor
of (or equal to) `possibleDescendant` iff the relative path between them
does not start with `..`. -/
def isAncestorOrSelf (possibleAncestor possibleDescendant : String) : Bool :=
  !(startsWithDotDot (pathRelative possibleAncestor possibleDescendant))

/-! ### The regex subset generated by `pattern.replace('*', '.*')` -/

mutual

/-- Does the regex match a prefix of `text`?  Regex subset: literal
characters, `.` and postfix `*`. -/
def matchHere : List Char → List Char → Bool
  | [], _ => true
  | p :: '*' :: re, text => matchStar p re text
  | '.' :: re, _ :: rest => matchHere re rest
  | _ :: _, [] => false
  | p :: re, c :: rest => (if p = c then true else false) && matchHere re rest
termination_by re text => 2 * re.length + 2 * text.length
decreasing_by all_goals (simp; try omega)

/-- Match zero or more occurrences of atom `p`, then the rest of the regex. -/
def matchStar (p : Char) (re : List Char) (text : List Char) : Bool :=
  matchHere re text ||
    (match text with
     | [] => false
     | c :: rest =>
       (if p = '.' then true else if p = c then true else false) &&
         matchStar p re rest)
termination_by 2 * re.length + 2 * text.length + 1
decreasing_by all_goals (simp; try omega)

end

/-- Does the regex match starting at some position of the text
(unanchored, like JavaScript `RegExp.prototype.test`)? -/
def matchAnywhere : List Char → List Char → Bool
  | re, [] => matchHere re []
  | re, c :: rest => matchHere re (c :: rest) || matchAnywhere re rest

/-- `new RegExp(regex).test(text)` for the generated regex subset. -/
def reTest (regex text : String) : Bool := matchAnywhere regex.data text.data

/-- `pattern.replace('*', '.*')` on the character list: only the first `*`
is replaced by `.*`; later characters are left untouched. -/
def replaceFirstStarL : List Char → List Char
  | [] => []
  | '*' :: rest => '.' :: '*' :: rest
  | c :: rest => c :: replaceFirstStarL rest

/-- `pattern.replace('*', '.*')` on strings. -/
def replaceFirstStar (s : String) : String := String.mk (replaceFirstStarL s.data)

/-- The exclusion test of `buildTree`: some pattern, turned into a regex by
replacing its first `*` with `.*`, matches the bare entry name or the full
entry path. -/
def isExcluded (excludePatterns : List String) (entry fullEntryPath : String) : Bool :=
  excludePatterns.any fun pattern =>
    let regex := replaceFirstStar pattern
    reTest regex entry || reTest regex fullEntryPath

/-! ### Tree builder -/

mutual

/-- `buildTree(dirPath, excludePatterns)` from the source, with the
filesystem content at `dirPath` passed as the explicit value `fs`:
a node named `path.basename(dirPath) || dirPath` whose children, for a
directory, are built from the non-excluded entries in enumeration order. -/
def buildTree (fs : FsEntry) (dirPath : String) (excludePatterns : List String) : TreeNode :=
  match fs with
  | .file _ => .mk (basenameOr dirPath) dirPath (some [])
  | .dir _ entries =>
    .mk (basenameOr dirPath) dirPath (some (buildForest entries dirPath excludePatterns))

/-- The `entries.filter(...).map(entry => buildTree(...))` step of
`buildTree`, fused into one pass over the enumerated entries. -/
def buildForest : List FsEntry → String → List String → List TreeNode
  | [], _, _ => []
  | e :: es, dirPath, pats =>
    if isExcluded pats e.name (pathJoin dirPath e.name) then
      buildForest es dirPath pats
    else
      buildTree e (pathJoin dirPath e.name) pats :: buildForest es dirPath pats

end

/-! ### Tree pruner -/

mutual

/-- `deepCloneTree` from the source: rebuild every node, normalizing an
absent `children` field to the empty array. -/
def deepCloneTree : TreeNode → TreeNode
  | .mk n p none => .mk n p (some [])
  | .mk n p (some cs) => .mk n p (some (deepCloneForest cs))

def deepCloneForest : List TreeNode → List TreeNode
  | [] => []
  | c :: cs => deepCloneTree c :: deepCloneForest cs

end

/-- `isRelevant` from the source: the node is an ancestor-or-self or a
descendant-or-self of at least one selected folder path. -/
def isRelevant (node : TreeNode) (selectedPaths : List String) : Bool :=
  selectedPaths.any fun folderPath =>
    isAncestorOrSelf node.fullPath folderPath ||
      isAncestorOrSelf folderPath node.fullPath

/-- The placeholder node `{name: '...', fullPath: '', children: []}`
appended for omitted siblings. -/
def placeholderNode : TreeNode := .mk "..." "" (some [])

/-- The `(empty)` node returned by `buildPrunedTree` when no selection is
found in the tree. -/
def emptyNode : TreeNode := .mk "(empty)" "" (some [])

mutual

/-- `pruneChildren(root, selectedFolderPaths)` from the source: returns the
root unchanged when it has no (or an empty) children array, otherwise
replaces its children by the kept relevant children (each pruned
recursively), with one placeholder appended iff some child was dropped. -/
def pruneChildren : TreeNode → List String → TreeNode
  | .mk n p none, _ => .mk n p none
  | .mk n p (some []), _ => .mk n p (some [])
  | .mk n p (some (cs@(_ :: _))), sels =>
    let r := pruneLoop cs sels
    .mk n p (some (if r.2 then r.1 ++ [placeholderNode] else r.1))

/-- The `for (const child of root.children)` loop of `pruneChildren`:
returns the kept (recursively pruned) relevant children in original order,
and the `hasIrrelevant` flag. -/
def pruneLoop : List TreeNode → List String → List TreeNode × Bool
  | [], _ => ([], false)
  | c :: cs, sels =>
    let r := pruneLoop cs sels
    if isRelevant c sels then (pruneChildren c sels :: r.1, r.2) else (r.1, true)

end

/-- The sibling-filtering step of `pruneChildren` on one children array:
kept relevant children in order, then one placeholder iff some sibling was
irrelevant. -/
def pruneSiblings (cs : List TreeNode) (sels : List String) : List TreeNode :=
  let r := pruneLoop cs sels
  if r.2 then r.1 ++ [placeholderNode] else r.1

mutual

/-- `findPath(root, targetPath)` from the source: the list of nodes from
`root` down to the node whose normalized `fullPath` equals the normalized
target, or `none` if the target does not occur. -/
def findPath : TreeNode → String → Option (List TreeNode)
  | root@(.mk _ _ c), targetPath =>
    if pathNormalize root.fullPath = pathNormalize targetPath then some [root]
    else
      match c with
      | none => none
      | some cs => (findPathForest cs targetPath).map (fun l => root :: l)

/-- The `for (const child of root.children)` loop of `findPath`: the first
child in which the target is found yields the path below the parent. -/
def findPathForest : List TreeNode → String → Option (List TreeNode)
  | [], _ => none
  | c :: cs, targetPath =>
    match findPath c targetPath with
    | some l => some l
    | none => findPathForest cs targetPath

end

/-- Whether all paths carry, at depth index `i`, a node whose normalized
`fullPath` equals that of the first path's node at `i` (the loop body of
`findLowestCommonAncestor`). -/
def agreeAt (paths : List (List TreeNode)) (i : Nat) : Bool :=
  match paths with
  | [] => true
  | p0 :: _ =>
    match p0[i]? with
    | none => false
    | some cand =>
      paths.all fun p =>
        match p[i]? with
        | none => false
        | some n =>
          if pathNormalize n.fullPath = pathNormalize cand.fullPath then true
          else false

/-- The scanning loop of `findLowestCommonAncestor`: starting at index `i`
with `fuel` indices left before `minLen`, update `last` to each index at
which all paths agree, stopping at the first disagreement. -/
def lcaLoop (paths : List (List TreeNode)) : Nat → Nat → Int → Int
  | 0, _, last => last
  | fuel + 1, i, last =>
    if agreeAt paths i then lcaLoop paths fuel (i + 1) (Int.ofNat i) else last

/-- `Math.min(...paths.map(p => p.length))` for a nonempty list of paths. -/
def lcaMinLen (paths : List (List TreeNode)) : Nat :=
  (paths.map List.length).foldr Nat.min ((paths.headD []).length)

/-- `findLowestCommonAncestor(paths)` from the source: for a single path
its last node; for several, the node of the first path at the last index
up to which all paths agree on normalized full paths, or `none` when there
is no such index. -/
def findLowestCommonAncestor (paths : List (List TreeNode)) : Option TreeNode :=
  match paths with
  | [] => none
  | [p] => p.getLast?
  | _ :: _ :: _ =>
    let minLen := lcaMinLen paths
    let lastCommonIndex := lcaLoop paths minLen 0 (-1)
    if lastCommonIndex < 0 then none
    else (paths.headD [])[lastCommonIndex.toNat]?

/-- `buildPrunedTree(root, selectedFolderPaths)` from the source: find the
root-to-selection paths, pick the LCA (for a single selection, the selected
node itself), deep-clone the subtree there and prune its siblings. -/
def buildPrunedTree (root : TreeNode) (sels : List String) : TreeNode :=
  let paths := sels.filterMap (fun s => findPath root s)
  match paths with
  | [] => emptyNode
  | _ :: _ =>
    match findLowestCommonAncestor paths with
    | none => root
    | some lcaNode =>
      let singleFolder : Bool := sels.length == 1
      let lcaIsSingleFolder : Bool :=
        singleFolder &&
          (if pathNormalize lcaNode.fullPath = pathNormalize (sels.headD "")
           then true else false)
      let newRoot : TreeNode :=
        if singleFolder && lcaIsSingleFolder then lcaNode
        else if singleFolder then ((paths.headD []).getLast?).getD lcaNode
        else lcaNode
      pruneChildren (deepCloneTree newRoot) sels

/-! ### Tree renderer -/

mutual

/-- `renderTree(node, prefix, isLast)` from the source: one line
`prefix ++ connector ++ name ++ "\n"` for the node, followed by its
children rendered with the extended prefix. -/
def renderTree : TreeNode → String → Bool → String
  | t@(.mk _ _ ch), pre, isLast =>
    let connector := if isLast then "└── " else "├── "
    let line := pre ++ connector ++ t.name ++ "\n"
    match ch with
    | none => line
    | some [] => line
    | some (cs@(_ :: _)) =>
      let newPre := pre ++ (if isLast then "    " else "│   ")
      line ++ renderForest cs newPre

/-- The `node.children.forEach(...)` loop of `renderTree`: each child is
rendered with `isLast` true exactly for the final child. -/
def renderForest : List TreeNode → String → String
  | [], _ => ""
  | [c], newPre => renderTree c newPre true
  | c :: cs, newPre => renderTree c newPre false ++ renderForest cs newPre

end

/-! ### Auxiliary observation functions used by the verification -/

mutual

/-- The number of nodes of a tree. -/
def countNodes : TreeNode → Nat
  | .mk _ _ none => 1
  | .mk _ _ (some cs) => 1 + countForest cs

/-- The number of nodes of a forest. -/
def countForest : List TreeNode → Nat
  | [] => 0
  | c :: cs => countNodes c + countForest cs

end

mutual

/-- All nodes of a tree, in preorder. -/
def nodesOf : TreeNode → List TreeNode
  | .mk n p none => [.mk n p none]
  | .mk n p (some cs) => .mk n p (some cs) :: nodesOfForest cs

/-- All nodes of a forest, in preorder. -/
def nodesOfForest : List TreeNode → List TreeNode
  | [] => []
  | c :: cs => nodesOf c ++ nodesOfForest cs

end

mutual

/-- Whether every node of the tree has its `children` field present
(`some` rather than an absent field). -/
def childrenPresent : TreeNode → Bool
  | .mk _ _ none => false
  | .mk _ _ (some cs) => forestChildrenPresent cs

/-- `childrenPresent` for every node of a forest. -/
def forestChildrenPresent : List TreeNode → Bool
  | [] => true
  | c :: cs => childrenPresent c && forestChildrenPresent cs

end

/-- Concatenation of a list of strings. -/
def concatAll : List String → String
  | [] => ""
  | s :: rest => s ++ concatAll rest

mutual

/-- The renderer specification, stated from the spec's words: one line
`prefix ++ connector ++ name ++ "\n"` per node, the connector being
`"└── "` for the root or a last child and `"├── "` otherwise, children
following their parent with the prefix extended by four spaces after a
last child and by `"│   "` otherwise. -/
def specLines : TreeNode → String → Bool → List String
  | .mk n _ ch, pre, isLast =>
    (pre ++ (if isLast then "└── " else "├── ") ++ n ++ "\n") ::
      (match ch with
       | none => []
       | some cs => specLinesForest cs (pre ++ (if isLast then "    " else "│   ")))

/-- The lines of a forest per the spec: each child in stored order, only
the final one rendered as a last child. -/
def specLinesForest : List TreeNode → String → List String
  | [], _ => []
  | [c], pre2 => specLines c pre2 true
  | c :: cs, pre2 => specLines c pre2 false ++ specLinesForest cs pre2

end

/-- The number of contiguous indices starting at `i`, within `fuel`, at
which all paths agree (used to describe the result of `lcaLoop`). -/
def contigAgree (paths : List (List TreeNode)) : Nat → Nat → Nat
  | _, 0 => 0
  | i, fuel + 1 => if agreeAt paths i then contigAgree paths (i + 1) fuel + 1 else 0

/-! ### Basic simp lemmas -/

@[simp] theorem name_mk (n p : String) (c : Option (List TreeNode)) :
    (TreeNode.mk n p c).name = n := rfl

@[simp] theorem fullPath_mk (n p : String) (c : Option (List TreeNode)) :
    (TreeNode.mk n p c).fullPath = p := rfl

@[simp] theorem children_mk (n p : String) (c : Option (List TreeNode)) :
    (TreeNode.mk n p c).children = c := rfl

theorem string_append_empty (s : String) : s ++ "" = s := by
  rcases s with ⟨d⟩
  show String.mk (d ++ []) = String.mk d
  rw [List.append_nil]

/-! ### Lemmas about the pruning loop -/

theorem pruneChildren_name (t : TreeNode) (sels : List String) :
    (pruneChildren t sels).name = t.name ∧ (pruneChildren t sels).fullPath = t.fullPath := by
  match t with
  | .mk n p none => simp [pruneChildren]
  | .mk n p (some []) => simp [pruneChildren]
  | .mk n p (some (c :: cs)) => simp [pruneChildren]

theorem pruneLoop_spec (cs : List TreeNode) (sels : List String) :
    pruneLoop cs sels =
      ((cs.filter fun c => isRelevant c sels).map fun c => pruneChildren c sels,
        cs.any fun c => !isRelevant c sels) := by
  induction cs with
  | nil => simp [pruneLoop]
  | cons c cs ih =>
    cases h : isRelevant c sels with
    | true => simp [pruneLoop, h, ih, List.filter_cons, List.any_cons]
    | false => simp [pruneLoop, h, ih, List.filter_cons, List.any_cons]

theorem pruneSiblings_spec (cs : List TreeNode) (sels : List String) :
    pruneSiblings cs sels =
      (cs.filter fun c => isRelevant c sels).map (fun c => pruneChildren c sels) ++
        (if cs.any (fun c => !isRelevant c sels) then [placeholderNode] else []) := by
  cases h : cs.any fun c => !isRelevant c sels <;>
    simp [pruneSiblings, pruneLoop_spec, h]

theorem pruneChildren_cons (n p : String) (c : TreeNode) (cs : List TreeNode)
    (sels : List String) :
    pruneChildren (.mk n p (some (c :: cs))) sels =
      .mk n p (some (pruneSiblings (c :: cs) sels)) := by
  simp [pruneChildren, pruneSiblings]

/-- Claim C1: when at least one sibling of a filtered children array is
irrelevant to every selected path, the kept list is exactly the relevant
children (each pruned recursively) in their original relative order,
followed by exactly one placeholder node `{name: "...", fullPath: "",
children: []}` appended at the end; the placeholder is the literal leaf
node (so it has no children), and pruning never recurses into a
placeholder (pruning it returns it unchanged). -/
theorem prune_placeholder_appended (cs : List TreeNode) (sels : List String)
    (h : (cs.any fun c => !isRelevant c sels) = true) :
    pruneSiblings cs sels =
      (cs.filter fun c => isRelevant c sels).map (fun c => pruneChildren c sels) ++
        [placeholderNode]
    ∧ placeholderNode = TreeNode.mk "..." "" (some [])
    ∧ pruneChildren placeholderNode sels = placeholderNode := by
  refine ⟨?_, rfl, ?_⟩
  · rw [pruneSiblings_spec, h]
    simp
  · simp [placeholderNode, pruneChildren]

/-- Witness for C1 at a concrete sibling group: `y` and `z` are irrelevant
to the selection `/r/x`, `x` is kept, and one placeholder is appended. -/
theorem prune_placeholder_appended_witness :
    ((([TreeNode.mk "x" "/r/x" (some []), TreeNode.mk "y" "/r/y" (some []),
        TreeNode.mk "z" "/r/z" (some [])]).any fun c => !isRelevant c ["/r/x"]) = true)
    ∧ pruneSiblings
        [TreeNode.mk "x" "/r/x" (some []), TreeNode.mk "y" "/r/y" (some []),
          TreeNode.mk "z" "/r/z" (some [])] ["/r/x"] =
        (([TreeNode.mk "x" "/r/x" (some []), TreeNode.mk "y" "/r/y" (some []),
          TreeNode.mk "z" "/r/z" (some [])]).filter
            fun c => isRelevant c ["/r/x"]).map (fun c => pruneChildren c ["/r/x"]) ++
          [placeholderNode]
    ∧ placeholderNode = TreeNode.mk "..." "" (some [])
    ∧ pruneChildren placeholderNode ["/r/x"] = placeholderNode :=
  ⟨by decide, prune_placeholder_appended _ _ (by decide)⟩

/-! ### Renderer lemmas -/

theorem string_append_assoc (a b c : String) : a ++ b ++ c = a ++ (b ++ c) := by
  rcases a with ⟨da⟩; rcases b with ⟨db⟩; rcases c with ⟨dc⟩
  show String.mk (da ++ db ++ dc) = String.mk (da ++ (db ++ dc))
  rw [List.append_assoc]

theorem concatAll_append (l1 l2 : List String) :
    concatAll (l1 ++ l2) = concatAll l1 ++ concatAll l2 := by
  induction l1 with
  | nil =>
    show concatAll l2 = "" ++ concatAll l2
    rcases concatAll l2 with ⟨d⟩
    rfl
  | cons s l1 ih => simp [concatAll, ih, string_append_assoc]

mutual

theorem renderTree_join (t : TreeNode) (pre : String) (isLast : Bool) :
    renderTree t pre isLast = concatAll (specLines t pre isLast) := by
  match t with
  | .mk n p none => simp [renderTree, specLines, concatAll, string_append_empty]
  | .mk n p (some []) =>
    simp [renderTree, specLines, specLinesForest, concatAll, string_append_empty]
  | .mk n p (some (c :: cs)) =>
    have hf := renderForest_join (c :: cs) (pre ++ (if isLast then "    " else "│   "))
    simp [renderTree, specLines, concatAll, hf]

theorem renderForest_join (cs : List TreeNode) (pre2 : String) :
    renderForest cs pre2 = concatAll (specLinesForest cs pre2) := by
  match cs with
  | [] => simp [renderForest, specLinesForest, concatAll]
  | [c] =>
    have h := renderTree_join c pre2 true
    simp [renderForest, specLinesForest, h, concatAll, string_append_empty]
  | c :: c2 :: cs =>
    have h1 := renderTree_join c pre2 false
    have h2 := renderForest_join (c2 :: cs) pre2
    simp [renderForest, specLinesForest, h1, h2, concatAll_append]

end

mutual

theorem specLines_length (t : TreeNode) (pre : String) (isLast : Bool) :
    (specLines t pre isLast).length = countNodes t := by
  match t with
  | .mk n p none => simp [specLines, countNodes]
  | .mk n p (some cs) =>
    have hf := specLinesForest_length cs (pre ++ (if isLast then "    " else "│   "))
    simp [specLines, countNodes, hf, Nat.add_comm]

theorem specLinesForest_length (cs : List TreeNode) (pre2 : String) :
    (specLinesForest cs pre2).length = countForest cs := by
  match cs with
  | [] => simp [specLinesForest, countForest]
  | [c] =>
    have h := specLines_length c pre2 true
    simp [specLinesForest, countForest, h]
  | c :: c2 :: cs =>
    have h1 := specLines_length c pre2 false
    have h2 := specLinesForest_length (c2 :: cs) pre2
    simp [specLinesForest, countForest, h1, h2]

end

theorem specLines_none (n p pre : String) (isLast : Bool) :
    specLines (.mk n p none) pre isLast =
      [pre ++ (if isLast then "└── " else "├── ") ++ n ++ "\n"] := by
  simp [specLines]

theorem specLines_some (n p : String) (cs : List TreeNode) (pre : String) (isLast : Bool) :
    specLines (.mk n p (some cs)) pre isLast =
      (pre ++ (if isLast then "└── " else "├── ") ++ n ++ "\n") ::
        specLinesForest cs (pre ++ (if isLast then "    " else "│   ")) := by
  simp [specLines]

theorem specLinesForest_cons_cons (c c2 : TreeNode) (cs : List TreeNode) (pre2 : String) :
    specLinesForest (c :: c2 :: cs) pre2 =
      specLines c pre2 false ++ specLinesForest (c2 :: cs) pre2 := by
  simp [specLinesForest]

mutual

theorem specLines_form (t : TreeNode) (pre : String) (isLast : Bool) (line : String)
    (h : line ∈ specLines t pre isLast) :
    ∃ p2 c2 n2, (c2 = "└── " ∨ c2 = "├── ") ∧ line = p2 ++ c2 ++ n2 ++ "\n" := by
  match t with
  | .mk n p none =>
    rw [specLines_none] at h
    rcases List.mem_singleton.mp h with h1
    exact ⟨pre, (if isLast then "└── " else "├── "), n,
      by cases isLast <;> simp, h1⟩
  | .mk n p (some cs) =>
    rw [specLines_some] at h
    rcases List.mem_cons.mp h with h1 | h2
    · exact ⟨pre, (if isLast then "└── " else "├── "), n,
        by cases isLast <;> simp, h1⟩
    · exact specLinesForest_form cs _ line h2

theorem specLinesForest_form (cs : List TreeNode) (pre2 : String) (line : String)
    (h : line ∈ specLinesForest cs pre2) :
    ∃ p2 c2 n2, (c2 = "└── " ∨ c2 = "├── ") ∧ line = p2 ++ c2 ++ n2 ++ "\n" := by
  match cs with
  | [] => simp [specLinesForest] at h
  | [c] =>
    rw [specLinesForest] at h
    exact specLines_form c pre2 true line h
  | c :: c2 :: cs =>
    rw [specLinesForest_cons_cons] at h
    rcases List.mem_append.mp h with h1 | h2
    · exact specLines_form c pre2 false line h1
    · exact specLinesForest_form (c2 :: cs) pre2 line h2

end

/-- Claim C4: `renderTree` produces exactly one line per node — its output
is the concatenation of the per-node lines given by the spec-side
`specLines` (which renders `prefix ++ connector ++ name ++ "\n"` with
connector `"└── "` for the root or a last child and `"├── "` otherwise,
and extends the children's prefix by four spaces after a last child and by
`"│   "` otherwise, children in stored order), the number of lines equals
the number of nodes, every produced line has the stated shape, and the
spec's concrete example renders as `"└── root\n    ├── a\n    └── b\n"`. -/
theorem render_one_line_per_node :
    (∀ (t : TreeNode) (pre : String) (isLast : Bool),
        renderTree t pre isLast = concatAll (specLines t pre isLast))
    ∧ (∀ (t : TreeNode) (pre : String) (isLast : Bool),
        (specLines t pre isLast).length = countNodes t)
    ∧ (∀ (t : TreeNode) (pre : String) (isLast : Bool) (line : String),
        line ∈ specLines t pre isLast →
          ∃ p2 c2 n2, (c2 = "└── " ∨ c2 = "├── ") ∧ line = p2 ++ c2 ++ n2 ++ "\n")
    ∧ renderTree
        (.mk "root" "/r" (some [.mk "a" "/r/a" (some []), .mk "b" "/r/b" (some [])]))
        "" true
        = "└── root\n    ├── a\n    └── b\n" :=
  ⟨renderTree_join, specLines_length, specLines_form, by simp [renderTree, renderForest]⟩

/-- Witness for C4: the line-shape implication applied at a concrete
rendered line of a concrete tree. -/
theorem render_one_line_per_node_witness :
    ("└── r\n" ∈ specLines (.mk "r" "/r" (some [])) "" true)
    ∧ (∃ p2 c2 n2, (c2 = "└── " ∨ c2 = "├── ") ∧ "└── r\n" = p2 ++ c2 ++ n2 ++ "\n") :=
  ⟨by simp [specLines_some, specLinesForest],
    render_one_line_per_node.2.2.1 (.mk "r" "/r" (some [])) "" true "└── r\n"
      (by simp [specLines_some, specLinesForest])⟩

/-! ### Builder lemmas -/

theorem matchAnywhere_of_matchHere (re : List Char) :
    ∀ (pre t : List Char), matchHere re t = true → matchAnywhere re (pre ++ t) = true := by
  intro pre
  induction pre with
  | nil =>
    intro t h
    cases t with
    | nil => simpa [matchAnywhere] using h
    | cons c rest => simp [matchAnywhere, h]
  | cons c pre ih =>
    intro t h
    have := ih t h
    simp [matchAnywhere, this]

theorem buildForest_eq (entries : List FsEntry) (dirPath : String) (pats : List String) :
    buildForest entries dirPath pats =
      (entries.filter fun e => !isExcluded pats e.name (pathJoin dirPath e.name)).map
        fun e => buildTree e (pathJoin dirPath e.name) pats := by
  induction entries with
  | nil => simp [buildForest]
  | cons e es ih =>
    cases h : isExcluded pats e.name (pathJoin dirPath e.name) with
    | true => simp [buildForest, h, ih, List.filter_cons]
    | false => simp [buildForest, h, ih, List.filter_cons]

theorem buildTree_root (fs : FsEntry) (dirPath : String) (pats : List String) :
    (buildTree fs dirPath pats).fullPath = dirPath ∧
      (buildTree fs dirPath pats).name = basenameOr dirPath := by
  cases fs <;> simp [buildTree]

/-- Claim C5: `buildTree` on a directory keeps exactly the immediate
entries for which no pattern's regex matches the bare name or the full
path (the test being `isExcluded`, which runs each pattern's regex
unanchored over both strings), recursing only into the kept entries in
enumeration order; the regex test is unanchored (a match of the regex at
any position, after any prefix, suffices); and the root node itself is
always returned with its own name and path, never filtered. -/
theorem buildTree_excludes_by_pattern :
    (∀ (nm dirPath : String) (entries : List FsEntry) (pats : List String),
        buildTree (.dir nm entries) dirPath pats =
          .mk (basenameOr dirPath) dirPath
            (some ((entries.filter
                fun e => !isExcluded pats e.name (pathJoin dirPath e.name)).map
              fun e => buildTree e (pathJoin dirPath e.name) pats)))
    ∧ (∀ (re pre t : List Char),
        matchHere re t = true → matchAnywhere re (pre ++ t) = true)
    ∧ (∀ (fs : FsEntry) (dirPath : String) (pats : List String),
        (buildTree fs dirPath pats).fullPath = dirPath ∧
          (buildTree fs dirPath pats).name = basenameOr dirPath) := by
  refine ⟨?_, matchAnywhere_of_matchHere, buildTree_root⟩
  intro nm dirPath entries pats
  simp [buildTree, buildForest_eq]

/-- Witness for C5: the unanchored-match implication applied concretely
(the regex `log` matching after the prefix `app.`). -/
theorem buildTree_excludes_by_pattern_witness :
    (matchHere ['l', 'o', 'g'] ['l', 'o', 'g'] = true)
    ∧ matchAnywhere ['l', 'o', 'g'] (['a', 'p', 'p', '.'] ++ ['l', 'o', 'g']) = true :=
  ⟨by simp [matchHere], buildTree_excludes_by_pattern.2.1 ['l', 'o', 'g']
    ['a', 'p', 'p', '.'] ['l', 'o', 'g'] (by simp [matchHere])⟩

theorem replaceFirstStarL_append (a b : List Char) (ha : '*' ∉ a) :
    replaceFirstStarL (a ++ '*' :: b) = a ++ '.' :: '*' :: b := by
  induction a with
  | nil => simp [replaceFirstStarL]
  | cons c a ih =>
    have hc : c ≠ '*' := fun h => ha (h ▸ List.mem_cons_self c a)
    have ha2 : '*' ∉ a := fun h => ha (List.mem_cons_of_mem c h)
    simp [replaceFirstStarL, hc, ih ha2]

/-- Claim C6: pattern-to-regex translation expands only the first `*` of a
pattern into the match-any-sequence token `.*` (everything after the first
`*`, including further `*` characters, is kept verbatim), and concretely
the pattern `"*.log"` excludes an entry named `app.log` but not one named
`app.txt` (shown both on the exclusion test and on `buildTree` itself). -/
theorem wildcard_first_star_only (a b : List Char) (ha : '*' ∉ a) :
    replaceFirstStarL (a ++ '*' :: b) = a ++ '.' :: '*' :: b
    ∧ isExcluded ["*.log"] "app.log" "/w/app.log" = true
    ∧ isExcluded ["*.log"] "app.txt" "/w/app.txt" = false
    ∧ buildTree (.dir "w" [.file "app.log", .file "app.txt"]) "/w" ["*.log"]
        = .mk "w" "/w" (some [.mk "app.txt" "/w/app.txt" (some [])]) := by
  refine ⟨replaceFirstStarL_append a b ha, ?_, ?_, ?_⟩
  · simp +decide [isExcluded, replaceFirstStar, replaceFirstStarL, reTest,
      matchAnywhere, matchHere, matchStar]
  · simp +decide [isExcluded, replaceFirstStar, replaceFirstStarL, reTest,
      matchAnywhere, matchHere, matchStar]
  · simp +decide [buildTree, buildForest, isExcluded, replaceFirstStar,
      replaceFirstStarL, reTest, matchAnywhere, matchHere, matchStar]

/-- Witness for C6 at a concrete pattern shape `a*b*c`: only the first `*`
becomes `.*`, the second stays verbatim. -/
theorem wildcard_first_star_only_witness :
    ('*' ∉ ['a'])
    ∧ (replaceFirstStarL (['a'] ++ '*' :: ['b', '*', 'c'])
        = ['a'] ++ '.' :: '*' :: ['b', '*', 'c']
      ∧ isExcluded ["*.log"] "app.log" "/w/app.log" = true
      ∧ isExcluded ["*.log"] "app.txt" "/w/app.txt" = false
      ∧ buildTree (.dir "w" [.file "app.log", .file "app.txt"]) "/w" ["*.log"]
          = .mk "w" "/w" (some [.mk "app.txt" "/w/app.txt" (some [])])) :=
  ⟨by decide, wildcard_first_star_only ['a'] ['b', '*', 'c'] (by decide)⟩

theorem isExcluded_of_empty_pattern (pats : List String) (h : "" ∈ pats)
    (entry fullEntryPath : String) : isExcluded pats entry fullEntryPath = true := by
  rw [isExcluded, List.any_eq_true]
  refine ⟨"", h, ?_⟩
  have : reTest (replaceFirstStar "") entry = true := by
    show matchAnywhere [] entry.data = true
    cases entry.data with
    | nil => simp [matchAnywhere, matchHere]
    | cons c rest => simp [matchAnywhere, matchHere]
  simp [this]

/-- Claim C9: when the exclude-pattern list contains the empty string,
every immediate entry of every visited directory matches (the empty
pattern's regex matches any string), so `buildTree` returns just the root
node with an empty children list, for files and directories alike. -/
theorem empty_pattern_excludes_all (fs : FsEntry) (dirPath : String)
    (pats : List String) (h : "" ∈ pats) :
    buildTree fs dirPath pats = .mk (basenameOr dirPath) dirPath (some []) := by
  cases fs with
  | file nm => simp [buildTree]
  | dir nm entries =>
    rw [buildTree, buildForest_eq]
    have : entries.filter
        (fun e => !isExcluded pats e.name (pathJoin dirPath e.name)) = [] := by
      rw [List.filter_eq_nil_iff]
      intro e _
      simp [isExcluded_of_empty_pattern pats h]
    rw [this]
    simp

/-- Witness for C9: the empty pattern wipes out a concrete directory. -/
theorem empty_pattern_excludes_all_witness :
    ("" ∈ ["", "node_modules"])
    ∧ buildTree (.dir "w" [.file "a.txt", .dir "d" [.file "x"]]) "/w" ["", "node_modules"]
        = .mk (basenameOr "/w") "/w" (some []) :=
  ⟨by decide, empty_pattern_excludes_all
    (.dir "w" [.file "a.txt", .dir "d" [.file "x"]]) "/w" ["", "node_modules"] (by decide)⟩

/-! ### Lemmas about `findPath` and the lowest common ancestor -/

theorem findPath_unfold (n p : String) (c : Option (List TreeNode)) (s : String) :
    findPath (.mk n p c) s =
      if pathNormalize p = pathNormalize s then some [TreeNode.mk n p c]
      else
        match c with
        | none => none
        | some cs => (findPathForest cs s).map fun l => TreeNode.mk n p c :: l := by
  cases c <;> rfl

theorem findPath_head (t : TreeNode) (s : String) (l : List TreeNode)
    (h : findPath t s = some l) : ∃ l2, l = t :: l2 := by
  rcases t with ⟨n, p, c⟩
  rw [findPath_unfold] at h
  split at h
  · exact ⟨[], by injection h with h2; exact h2.symm⟩
  · rcases c with _ | cs
    · simp at h
    · simp only [] at h
      rcases Option.map_eq_some'.mp h with ⟨a, _, ha2⟩
      exact ⟨a, ha2.symm⟩

theorem getLast?_cons_of_getLast? (a x : TreeNode) (l : List TreeNode)
    (h : l.getLast? = some x) : (a :: l).getLast? = some x := by
  cases l with
  | nil => simp at h
  | cons b l => rw [List.getLast?_cons_cons]; exact h

mutual

theorem findPath_last (t : TreeNode) (s : String) (l : List TreeNode)
    (h : findPath t s = some l) :
    ∃ n2, l.getLast? = some n2 ∧ pathNormalize n2.fullPath = pathNormalize s := by
  match t with
  | .mk n p c =>
    rw [findPath_unfold] at h
    split at h
    · rename_i hnorm
      injection h with h2
      exact ⟨.mk n p c, by rw [← h2]; rfl, hnorm⟩
    · match c with
      | none => simp at h
      | some cs =>
        simp only [] at h
        rcases Option.map_eq_some'.mp h with ⟨a, ha, ha2⟩
        rcases findPathForest_last cs s a ha with ⟨n2, hn1, hn2⟩
        exact ⟨n2, ha2 ▸ getLast?_cons_of_getLast? _ n2 a hn1, hn2⟩

theorem findPathForest_last (cs : List TreeNode) (s : String) (l : List TreeNode)
    (h : findPathForest cs s = some l) :
    ∃ n2, l.getLast? = some n2 ∧ pathNormalize n2.fullPath = pathNormalize s := by
  match cs with
  | [] => simp [findPathForest] at h
  | c :: cs =>
    rw [findPathForest] at h
    split at h
    · rename_i l2 hc
      injection h with h2
      exact h2 ▸ findPath_last c s l2 hc
    · exact findPathForest_last cs s l h

end

theorem paths_mem_head (root : TreeNode) (sels : List String) (l : List TreeNode)
    (h : l ∈ sels.filterMap fun s => findPath root s) : ∃ l2, l = root :: l2 := by
  rcases List.mem_filterMap.mp h with ⟨s, _, hs⟩
  exact findPath_head root s l hs

theorem filterMap_isSome_length (sels : List String) (f : String → Option (List TreeNode))
    (h : ∀ s ∈ sels, (f s).isSome = true) :
    (sels.filterMap f).length = sels.length := by
  induction sels with
  | nil => simp
  | cons s sels ih =>
    rcases Option.isSome_iff_exists.mp (h s (List.mem_cons_self s sels)) with ⟨l, hl⟩
    rw [List.filterMap_cons_some hl, List.length_cons, List.length_cons,
      ih fun s2 hs2 => h s2 (List.mem_cons_of_mem s hs2)]

theorem agreeAt_zero (root : TreeNode) (sels : List String)
    (p0 : List TreeNode) (ps : List (List TreeNode))
    (hpaths : (sels.filterMap fun s => findPath root s) = p0 :: ps) :
    agreeAt (p0 :: ps) 0 = true := by
  have hmem : ∀ l ∈ p0 :: ps, ∃ l2, l = root :: l2 := by
    intro l hl
    exact paths_mem_head root sels l (hpaths ▸ hl)
  rcases hmem p0 (List.mem_cons_self p0 ps) with ⟨l2, hl2⟩
  rw [agreeAt]
  have h0 : p0[0]? = some root := by rw [hl2]; simp
  rw [h0]
  rw [List.all_eq_true]
  intro p hp
  rcases hmem p hp with ⟨l3, hl3⟩
  have hp0 : p[0]? = some root := by rw [hl3]; simp
  rw [hp0]
  simp

theorem lcaLoop_eq (paths : List (List TreeNode)) :
    ∀ (fuel i : Nat) (last : Int),
      lcaLoop paths fuel i last =
        if contigAgree paths i fuel = 0 then last
        else Int.ofNat (i + contigAgree paths i fuel - 1) := by
  intro fuel
  induction fuel with
  | zero => intro i last; simp [lcaLoop, contigAgree]
  | succ fuel ih =>
    intro i last
    by_cases ha : agreeAt paths i = true
    · have hc : contigAgree paths i (fuel + 1) = contigAgree paths (i + 1) fuel + 1 := by
        rw [contigAgree, if_pos ha]
      have hl : lcaLoop paths (fuel + 1) i last = lcaLoop paths fuel (i + 1) (Int.ofNat i) := by
        rw [lcaLoop, if_pos ha]
      rw [hl, ih (i + 1) (Int.ofNat i), hc, if_neg (Nat.succ_ne_zero _)]
      cases h2 : contigAgree paths (i + 1) fuel with
      | zero => rw [if_pos rfl]; exact congrArg Int.ofNat (by omega)
      | succ k =>
        rw [if_neg (Nat.succ_ne_zero k)]
        congr 1
        omega
    · have hc : contigAgree paths i (fuel + 1) = 0 := by
        rw [contigAgree, if_neg ha]
      have hl : lcaLoop paths (fuel + 1) i last = last := by
        rw [lcaLoop, if_neg ha]
      rw [hl, hc, if_pos rfl]

theorem contigAgree_agree (paths : List (List TreeNode)) :
    ∀ (fuel i j : Nat), j < contigAgree paths i fuel → agreeAt paths (i + j) = true := by
  intro fuel
  induction fuel with
  | zero => intro i j h; simp [contigAgree] at h
  | succ fuel ih =>
    intro i j h
    rw [contigAgree] at h
    cases ha : agreeAt paths i with
    | false => rw [ha] at h; simp at h
    | true =>
      rw [ha, if_pos rfl] at h
      cases j with
      | zero => simpa using ha
      | succ j =>
        have := ih (i + 1) j (by omega)
        rw [Nat.add_comm i (j + 1)]
        rw [Nat.add_comm i 1] at this
        convert this using 2
        omega

theorem contigAgree_le (paths : List (List TreeNode)) :
    ∀ (fuel i : Nat), contigAgree paths i fuel ≤ fuel := by
  intro fuel
  induction fuel with
  | zero => intro i; simp [contigAgree]
  | succ fuel ih =>
    intro i
    rw [contigAgree]
    cases agreeAt paths i with
    | false => simp
    | true =>
      have := ih (i + 1)
      simp
      omega

theorem contigAgree_end (paths : List (List TreeNode)) :
    ∀ (fuel i : Nat), contigAgree paths i fuel < fuel →
      agreeAt paths (i + contigAgree paths i fuel) = false := by
  intro fuel
  induction fuel with
  | zero => intro i h; omega
  | succ fuel ih =>
    intro i h
    by_cases ha : agreeAt paths i = true
    · have hc : contigAgree paths i (fuel + 1) = contigAgree paths (i + 1) fuel + 1 := by
        rw [contigAgree, if_pos ha]
      rw [hc] at h ⊢
      have := ih (i + 1) (by omega)
      rw [Nat.add_comm (i + 1) _] at this
      convert this using 2
      omega
    · have hc : contigAgree paths i (fuel + 1) = 0 := by
        rw [contigAgree, if_neg ha]
      rw [hc, Nat.add_zero]
      cases hq : agreeAt paths i
      · rfl
      · exact absurd hq ha

theorem contigAgree_pos (paths : List (List TreeNode)) (fuel i : Nat)
    (h : agreeAt paths i = true) (hf : 0 < fuel) : 0 < contigAgree paths i fuel := by
  cases fuel with
  | zero => omega
  | succ fuel => rw [contigAgree, h, if_pos rfl]; omega

theorem foldr_min_le_init (l : List Nat) (init : Nat) : l.foldr Nat.min init ≤ init := by
  induction l with
  | nil => simp
  | cons x l ih => simp only [List.foldr_cons]; exact Nat.le_trans (Nat.min_le_right _ _) ih

theorem le_foldr_min (l : List Nat) (init k : Nat) (h1 : ∀ x ∈ l, k ≤ x) (h2 : k ≤ init) :
    k ≤ l.foldr Nat.min init := by
  induction l with
  | nil => simpa
  | cons x l ih =>
    simp only [List.foldr_cons]
    exact Nat.le_min.mpr ⟨h1 x (List.mem_cons_self x l),
      ih fun y hy => h1 y (List.mem_cons_of_mem x hy)⟩

theorem lcaMinLen_le_head (p0 : List TreeNode) (ps : List (List TreeNode)) :
    lcaMinLen (p0 :: ps) ≤ p0.length := by
  rw [lcaMinLen]
  simp only [List.map_cons, List.foldr_cons, List.headD_cons]
  exact Nat.le_trans (Nat.min_le_left _ _) (Nat.le_refl _)

theorem le_lcaMinLen (p0 : List TreeNode) (ps : List (List TreeNode)) (k : Nat)
    (h : ∀ p ∈ p0 :: ps, k ≤ p.length) : k ≤ lcaMinLen (p0 :: ps) := by
  rw [lcaMinLen]
  refine le_foldr_min _ _ _ ?_ (by simpa using h p0 (List.mem_cons_self p0 ps))
  intro x hx
  rcases List.mem_map.mp hx with ⟨p, hp, hlen⟩
  exact hlen ▸ h p hp

/-- For a nonempty list of paths built by `findPath` from a common root,
`findLowestCommonAncestor` always yields a node. -/
theorem lca_of_paths (root : TreeNode) (sels : List String)
    (p0 : List TreeNode) (ps : List (List TreeNode))
    (hpaths : (sels.filterMap fun s => findPath root s) = p0 :: ps) :
    ∃ n2, findLowestCommonAncestor (p0 :: ps) = some n2 := by
  have hmem : ∀ l ∈ p0 :: ps, ∃ l2, l = root :: l2 := fun l hl =>
    paths_mem_head root sels l (hpaths ▸ hl)
  rcases hmem p0 (List.mem_cons_self p0 ps) with ⟨l2, hl2⟩
  match ps with
  | [] =>
    rw [findLowestCommonAncestor]
    rw [hl2]
    cases l2 with
    | nil => exact ⟨root, rfl⟩
    | cons b l3 =>
      refine ⟨(b :: l3).getLast (List.cons_ne_nil b l3), ?_⟩
      rw [List.getLast?_cons_cons, List.getLast?_eq_getLast]
  | p1 :: ps2 =>
    have hlen : ∀ p ∈ p0 :: p1 :: ps2, 1 ≤ p.length := by
      intro p hp
      rcases hmem p hp with ⟨l3, hl3⟩
      simp [hl3]
    have hmin1 : 1 ≤ lcaMinLen (p0 :: p1 :: ps2) := le_lcaMinLen _ _ 1 hlen
    have hagree0 : agreeAt (p0 :: p1 :: ps2) 0 = true := agreeAt_zero root sels _ _ hpaths
    have hcpos : 0 < contigAgree (p0 :: p1 :: ps2) 0 (lcaMinLen (p0 :: p1 :: ps2)) :=
      contigAgree_pos _ _ 0 hagree0 (by omega)
    rw [findLowestCommonAncestor]
    rw [lcaLoop_eq]
    set cg := contigAgree (p0 :: p1 :: ps2) 0 (lcaMinLen (p0 :: p1 :: ps2)) with hcg
    rw [if_neg (show ¬ cg = 0 by omega)]
    rw [if_neg (show ¬ Int.ofNat (0 + cg - 1) < 0 from
      Int.not_lt.mpr (Int.ofNat_nonneg (0 + cg - 1)))]
    have hlt : cg - 1 < p0.length := by
      have h1 : cg ≤ lcaMinLen (p0 :: p1 :: ps2) := hcg ▸ contigAgree_le _ _ _
      have h2 : lcaMinLen (p0 :: p1 :: ps2) ≤ p0.length := lcaMinLen_le_head _ _
      omega
    simp only [List.headD_cons]
    rw [show (0 : Nat) + cg - 1 = cg - 1 by omega]
    rw [show (Int.ofNat (cg - 1)).toNat = cg - 1 from rfl]
    rw [List.getElem?_eq_getElem hlt]
    exact ⟨_, rfl⟩

theorem buildPrunedTree_single (root : TreeNode) (s : String)
    (l : List TreeNode) (n2 : TreeNode)
    (hfp : findPath root s = some l) (hlast : l.getLast? = some n2) :
    buildPrunedTree root [s] = pruneChildren (deepCloneTree n2) [s] := by
  have hpaths : ([s].filterMap fun s2 => findPath root s2) = [l] := by
    simp [List.filterMap_cons, hfp]
  have hlca : findLowestCommonAncestor [l] = some n2 := by
    rw [findLowestCommonAncestor]; exact hlast
  have hnorm : pathNormalize n2.fullPath = pathNormalize s := by
    rcases findPath_last root s l hfp with ⟨n3, h1, h2⟩
    rw [hlast] at h1; injection h1 with h1; rw [h1]; exact h2
  rw [buildPrunedTree]
  rw [hpaths]
  simp [hlca, hnorm]

theorem buildPrunedTree_multi (root : TreeNode) (sels : List String)
    (p0 : List TreeNode) (ps : List (List TreeNode)) (n2 : TreeNode)
    (hone : ¬ sels.length = 1)
    (hpaths : (sels.filterMap fun s => findPath root s) = p0 :: ps)
    (hlca : findLowestCommonAncestor (p0 :: ps) = some n2) :
    buildPrunedTree root sels = pruneChildren (deepCloneTree n2) sels := by
  have hbeq : (sels.length == 1) = false := by
    rw [beq_eq_false_iff_ne]; omega
  rw [buildPrunedTree]
  rw [hpaths]
  simp [hlca, hbeq]

theorem buildPrunedTree_of_clone (root : TreeNode) (sels : List String)
    (p0 : List TreeNode) (ps : List (List TreeNode))
    (hpaths : (sels.filterMap fun s => findPath root s) = p0 :: ps) :
    ∃ nr, buildPrunedTree root sels = pruneChildren (deepCloneTree nr) sels := by
  rcases lca_of_paths root sels p0 ps hpaths with ⟨n2, hlca⟩
  rw [buildPrunedTree]
  rw [hpaths]
  simp only [hlca]
  exact ⟨_, rfl⟩

theorem buildPrunedTree_empty (root : TreeNode) (sels : List String)
    (hpaths : (sels.filterMap fun s => findPath root s) = []) :
    buildPrunedTree root sels = emptyNode := by
  rw [buildPrunedTree]
  rw [hpaths]

/-! ### Lemmas about `deepCloneTree` and the children-present invariant -/

theorem deepCloneTree_parts (t : TreeNode) :
    (deepCloneTree t).name = t.name ∧ (deepCloneTree t).fullPath = t.fullPath := by
  rcases t with ⟨n, p, _ | cs⟩ <;> simp [deepCloneTree]

mutual

theorem childrenPresent_clone (t : TreeNode) : childrenPresent (deepCloneTree t) = true := by
  match t with
  | .mk n p none => simp [deepCloneTree, childrenPresent, forestChildrenPresent]
  | .mk n p (some cs) =>
    have h := forestChildrenPresent_clone cs
    simp [deepCloneTree, childrenPresent, h]

theorem forestChildrenPresent_clone (cs : List TreeNode) :
    forestChildrenPresent (deepCloneForest cs) = true := by
  match cs with
  | [] => simp [deepCloneForest, forestChildrenPresent]
  | c :: cs =>
    have h1 := childrenPresent_clone c
    have h2 := forestChildrenPresent_clone cs
    simp [deepCloneForest, forestChildrenPresent, h1, h2]

end

theorem forestChildrenPresent_append (l1 l2 : List TreeNode) :
    forestChildrenPresent (l1 ++ l2) =
      (forestChildrenPresent l1 && forestChildrenPresent l2) := by
  induction l1 with
  | nil => simp [forestChildrenPresent]
  | cons c l1 ih => simp [forestChildrenPresent, ih, Bool.and_assoc]

theorem childrenPresent_placeholder : childrenPresent placeholderNode = true := by
  simp [placeholderNode, childrenPresent, forestChildrenPresent]

mutual

theorem childrenPresent_prune (t : TreeNode) (sels : List String)
    (h : childrenPresent t = true) :
    childrenPresent (pruneChildren t sels) = true := by
  match t with
  | .mk n p none => simp [childrenPresent] at h
  | .mk n p (some []) =>
    have he : pruneChildren (.mk n p (some [])) sels = .mk n p (some []) := by
      simp [pruneChildren]
    rw [he]; exact h
  | .mk n p (some (c :: cs)) =>
    rw [pruneChildren_cons, childrenPresent, pruneSiblings_spec]
    rw [childrenPresent] at h
    rw [forestChildrenPresent_append]
    have hk := forestChildrenPresent_keep (c :: cs) sels h
    cases (c :: cs).any fun c2 => !isRelevant c2 sels with
    | false => simp [hk, forestChildrenPresent]
    | true => simp [hk, forestChildrenPresent, childrenPresent_placeholder]

theorem forestChildrenPresent_keep (cs : List TreeNode) (sels : List String)
    (h : forestChildrenPresent cs = true) :
    forestChildrenPresent
      ((cs.filter fun c => isRelevant c sels).map fun c => pruneChildren c sels) = true := by
  match cs with
  | [] => simp [forestChildrenPresent]
  | c :: cs =>
    rw [forestChildrenPresent, Bool.and_eq_true] at h
    have h1 := childrenPresent_prune c sels h.1
    have h2 := forestChildrenPresent_keep cs sels h.2
    rw [List.filter_cons]
    cases isRelevant c sels with
    | false => simpa using h2
    | true => simp [forestChildrenPresent, h1, h2]

end

/-! ### Node-set lemmas: pruning introduces no full path not already in
the subtree (apart from the placeholder's empty path) -/

theorem nodesOfForest_append (l1 l2 : List TreeNode) :
    nodesOfForest (l1 ++ l2) = nodesOfForest l1 ++ nodesOfForest l2 := by
  induction l1 with
  | nil => simp [nodesOfForest]
  | cons c l1 ih => simp [nodesOfForest, ih]

theorem nodesOfForest_cons (c : TreeNode) (cs : List TreeNode) :
    nodesOfForest (c :: cs) = nodesOf c ++ nodesOfForest cs := by
  simp [nodesOfForest]

mutual

theorem nodesOf_clone_fullPaths (t : TreeNode) :
    (nodesOf (deepCloneTree t)).map TreeNode.fullPath =
      (nodesOf t).map TreeNode.fullPath := by
  match t with
  | .mk n p none => simp [deepCloneTree, nodesOf, nodesOfForest]
  | .mk n p (some cs) =>
    have h := nodesOfForest_clone_fullPaths cs
    simp [deepCloneTree, nodesOf, h]

theorem nodesOfForest_clone_fullPaths (cs : List TreeNode) :
    (nodesOfForest (deepCloneForest cs)).map TreeNode.fullPath =
      (nodesOfForest cs).map TreeNode.fullPath := by
  match cs with
  | [] => simp [deepCloneForest, nodesOfForest]
  | c :: cs =>
    have h1 := nodesOf_clone_fullPaths c
    have h2 := nodesOfForest_clone_fullPaths cs
    simp [deepCloneForest, nodesOfForest, h1, h2]

end

mutual

theorem nodesOf_prune_sub (t : TreeNode) (sels : List String) (m : TreeNode)
    (h : m ∈ nodesOf (pruneChildren t sels)) :
    m.fullPath = "" ∨ m.fullPath ∈ (nodesOf t).map TreeNode.fullPath := by
  match t with
  | .mk n p none =>
    have he : pruneChildren (.mk n p none) sels = .mk n p none := by
      simp [pruneChildren]
    rw [he] at h
    right
    rw [nodesOf] at h ⊢
    rcases List.mem_singleton.mp h with h1
    simp [h1]
  | .mk n p (some []) =>
    have he : pruneChildren (.mk n p (some [])) sels = .mk n p (some []) := by
      simp [pruneChildren]
    rw [he] at h
    right
    rw [nodesOf] at h ⊢
    rcases List.mem_cons.mp h with h1 | h1
    · simp [h1]
    · simp [nodesOfForest] at h1
  | .mk n p (some (c :: cs)) =>
    rw [pruneChildren_cons, nodesOf] at h
    rcases List.mem_cons.mp h with h1 | h1
    · right
      rw [nodesOf]
      simp [h1]
    · rw [pruneSiblings_spec, nodesOfForest_append] at h1
      rcases List.mem_append.mp h1 with h2 | h2
      · rcases nodesOfForest_keep_sub (c :: cs) sels m h2 with h3 | h3
        · exact Or.inl h3
        · right
          rw [nodesOf]
          simp only [List.map_cons, List.mem_cons]
          exact Or.inr (by simpa using h3)
      · left
        cases hi : (c :: cs).any fun c2 => !isRelevant c2 sels with
        | false => rw [hi] at h2; simp [nodesOfForest] at h2
        | true =>
          rw [hi, if_pos rfl] at h2
          rw [show nodesOfForest [placeholderNode] = [placeholderNode] from by
            simp [nodesOfForest, placeholderNode, nodesOf]] at h2
          rcases List.mem_singleton.mp h2 with h3
          simp [h3, placeholderNode]

theorem nodesOfForest_keep_sub (cs : List TreeNode) (sels : List String) (m : TreeNode)
    (h : m ∈ nodesOfForest
      ((cs.filter fun c => isRelevant c sels).map fun c => pruneChildren c sels)) :
    m.fullPath = "" ∨ m.fullPath ∈ (nodesOfForest cs).map TreeNode.fullPath := by
  match cs with
  | [] => simp [nodesOfForest] at h
  | c :: cs =>
    rw [List.filter_cons] at h
    cases hr : isRelevant c sels with
    | false =>
      rw [hr, if_neg Bool.false_ne_true] at h
      rcases nodesOfForest_keep_sub cs sels m h with h1 | h1
      · exact Or.inl h1
      · right
        rw [nodesOfForest_cons, List.map_append, List.mem_append]
        exact Or.inr h1
    | true =>
      rw [hr, if_pos rfl, List.map_cons, nodesOfForest_cons] at h
      rcases List.mem_append.mp h with h1 | h1
      · rcases nodesOf_prune_sub c sels m h1 with h2 | h2
        · exact Or.inl h2
        · right
          rw [nodesOfForest_cons, List.map_append, List.mem_append]
          exact Or.inl h2
      · rcases nodesOfForest_keep_sub cs sels m h1 with h2 | h2
        · exact Or.inl h2
        · right
          rw [nodesOfForest_cons, List.map_append, List.mem_append]
          exact Or.inr h2

end

/-! ### Rendering a deep clone -/

mutual

theorem renderTree_clone (t : TreeNode) (pre : String) (b : Bool) :
    renderTree (deepCloneTree t) pre b = renderTree t pre b := by
  match t with
  | .mk n p none => simp [deepCloneTree, renderTree]
  | .mk n p (some []) => simp [deepCloneTree, deepCloneForest, renderTree]
  | .mk n p (some (c :: cs)) =>
    have hf := renderForest_clone (c :: cs) (pre ++ (if b then "    " else "│   "))
    have e2 : deepCloneForest (c :: cs) = deepCloneTree c :: deepCloneForest cs := by
      simp [deepCloneForest]
    rw [e2] at hf
    simp [deepCloneTree, deepCloneForest, renderTree, hf]

theorem renderForest_clone (cs : List TreeNode) (pre2 : String) :
    renderForest (deepCloneForest cs) pre2 = renderForest cs pre2 := by
  match cs with
  | [] => simp [deepCloneForest]
  | [c] =>
    have h := renderTree_clone c pre2 true
    simp [deepCloneForest, renderForest, h]
  | c :: c2 :: cs =>
    have h1 := renderTree_clone c pre2 false
    have h2 := renderForest_clone (c2 :: cs) pre2
    have e2 : deepCloneForest (c2 :: cs) = deepCloneTree c2 :: deepCloneForest cs := by
      simp [deepCloneForest]
    rw [e2] at h2
    simp [deepCloneForest, renderForest, h1, h2]

end

/-- The `x` subtree of the spec's example tree `root/{x/{p,q}, y}`. -/
def xNode : TreeNode :=
  .mk "x" "/root/x" (some [.mk "p" "/root/x/p" (some []), .mk "q" "/root/x/q" (some [])])

/-- The spec's example tree `root/{x/{p,q}, y}`. -/
def exTree : TreeNode := .mk "root" "/root" (some [xNode, .mk "y" "/root/y" (some [])])

/-- Claim C2: for a singleton selection whose path is found in the tree,
the pruned tree is rooted directly at the selected folder itself — the
result is exactly the pruning of a deep clone of the selected node, so its
name and full path are the selected node's, and every node of the result
carries either the placeholder's empty path or a full path from the
selected node's subtree (no ancestor of the selection appears); on the
spec's example `root/{x/{p,q}, y}` with selection `x`, the result is
rooted at `x` with children `[p, q]`, no placeholder, and `y` nowhere. -/
theorem prune_single_selection_rooted (root : TreeNode) (s : String)
    (l : List TreeNode) (n2 : TreeNode)
    (hfp : findPath root s = some l) (hlast : l.getLast? = some n2) :
    buildPrunedTree root [s] = pruneChildren (deepCloneTree n2) [s]
    ∧ (buildPrunedTree root [s]).name = n2.name
    ∧ (buildPrunedTree root [s]).fullPath = n2.fullPath
    ∧ (∀ m, m ∈ nodesOf (buildPrunedTree root [s]) →
        m.fullPath = "" ∨ m.fullPath ∈ (nodesOf n2).map TreeNode.fullPath)
    ∧ buildPrunedTree exTree ["/root/x"]
        = .mk "x" "/root/x"
            (some [.mk "p" "/root/x/p" (some []), .mk "q" "/root/x/q" (some [])]) := by
  have he := buildPrunedTree_single root s l n2 hfp hlast
  refine ⟨he, ?_, ?_, ?_, ?_⟩
  · rw [he, (pruneChildren_name _ _).1, (deepCloneTree_parts n2).1]
  · rw [he, (pruneChildren_name _ _).2, (deepCloneTree_parts n2).2]
  · intro m hm
    rw [he] at hm
    rcases nodesOf_prune_sub _ _ m hm with h1 | h1
    · exact Or.inl h1
    · right
      rw [nodesOf_clone_fullPaths] at h1
      exact h1
  · simp +decide [buildPrunedTree, exTree, xNode, findPath, findPathForest,
      findLowestCommonAncestor, pruneChildren, pruneLoop, isRelevant,
      deepCloneTree, deepCloneForest, placeholderNode]

/-- Witness for C2: the concrete example tree with selection `/root/x`. -/
theorem prune_single_selection_rooted_witness :
    (findPath exTree "/root/x" = some [exTree, xNode])
    ∧ ([exTree, xNode].getLast? = some xNode)
    ∧ buildPrunedTree exTree ["/root/x"] = pruneChildren (deepCloneTree xNode) ["/root/x"] :=
  ⟨rfl, rfl,
    (prune_single_selection_rooted exTree "/root/x" [exTree, xNode] xNode rfl rfl).1⟩

/-- Claim C3: for two or more selections all present in the tree,
`buildPrunedTree` returns the pruning of a deep clone of the lowest common
ancestor of the root-to-selection paths: the node of the first path at the
deepest index `k` at which all paths agree on normalized full paths, scan
stopping at the first divergence (`k + 1` either reaches the minimum path
length or is an index at which the paths disagree); no node above that LCA
appears in the output. -/
theorem prune_multi_selection_lca (root : TreeNode) (sels : List String)
    (h2 : 2 ≤ sels.length)
    (hall : (sels.all fun s => (findPath root s).isSome) = true) :
    ∃ n2 k,
      findLowestCommonAncestor (sels.filterMap fun s => findPath root s) = some n2
      ∧ buildPrunedTree root sels = pruneChildren (deepCloneTree n2) sels
      ∧ (buildPrunedTree root sels).name = n2.name
      ∧ (buildPrunedTree root sels).fullPath = n2.fullPath
      ∧ ((sels.filterMap fun s => findPath root s).headD [])[k]? = some n2
      ∧ (∀ j, j ≤ k → agreeAt (sels.filterMap fun s => findPath root s) j = true)
      ∧ (k + 1 = lcaMinLen (sels.filterMap fun s => findPath root s)
          ∨ agreeAt (sels.filterMap fun s => findPath root s) (k + 1) = false)
      ∧ ∀ m, m ∈ nodesOf (buildPrunedTree root sels) →
          m.fullPath = "" ∨ m.fullPath ∈ (nodesOf n2).map TreeNode.fullPath := by
  have hall2 : ∀ s ∈ sels, (findPath root s).isSome = true := by
    rw [List.all_eq_true] at hall
    intro s hs
    simpa using hall s hs
  have hlen : (sels.filterMap fun s => findPath root s).length = sels.length :=
    filterMap_isSome_length sels _ hall2
  cases hshape : sels.filterMap fun s => findPath root s with
  | nil => rw [hshape] at hlen; simp at hlen; omega
  | cons p0 rest =>
  cases rest with
  | nil => rw [hshape] at hlen; simp at hlen; omega
  | cons p1 ps2 =>
  have hmem : ∀ l2 ∈ p0 :: p1 :: ps2, ∃ l3, l2 = root :: l3 := fun l2 hl2 =>
    paths_mem_head root sels l2 (hshape ▸ hl2)
  have hlen1 : ∀ p ∈ p0 :: p1 :: ps2, 1 ≤ p.length := by
    intro p hp
    rcases hmem p hp with ⟨l3, hl3⟩
    simp [hl3]
  have hmin1 : 1 ≤ lcaMinLen (p0 :: p1 :: ps2) := le_lcaMinLen _ _ 1 hlen1
  have hagree0 : agreeAt (p0 :: p1 :: ps2) 0 = true := agreeAt_zero root sels _ _ hshape
  have hcpos : 0 < contigAgree (p0 :: p1 :: ps2) 0 (lcaMinLen (p0 :: p1 :: ps2)) :=
    contigAgree_pos _ _ 0 hagree0 (by omega)
  set cg := contigAgree (p0 :: p1 :: ps2) 0 (lcaMinLen (p0 :: p1 :: ps2)) with hcg
  have hle : cg ≤ lcaMinLen (p0 :: p1 :: ps2) := hcg ▸ contigAgree_le _ _ _
  have hlt : cg - 1 < p0.length := by
    have hh := lcaMinLen_le_head p0 (p1 :: ps2)
    omega
  have hlca : findLowestCommonAncestor (p0 :: p1 :: ps2) = some p0[cg - 1] := by
    rw [findLowestCommonAncestor, lcaLoop_eq]
    rw [if_neg (show ¬ cg = 0 by omega)]
    rw [if_neg (show ¬ Int.ofNat (0 + cg - 1) < 0 from
      Int.not_lt.mpr (Int.ofNat_nonneg (0 + cg - 1)))]
    simp only [List.headD_cons]
    rw [show (0 : Nat) + cg - 1 = cg - 1 by omega]
    rw [show (Int.ofNat (cg - 1)).toNat = cg - 1 from rfl]
    rw [List.getElem?_eq_getElem hlt]
  have hone : ¬ sels.length = 1 := by omega
  have he := buildPrunedTree_multi root sels p0 (p1 :: ps2) p0[cg - 1] hone hshape hlca
  refine ⟨p0[cg - 1], cg - 1, hlca, he, ?_, ?_, ?_, ?_, ?_, ?_⟩
  · rw [he, (pruneChildren_name _ _).1, (deepCloneTree_parts _).1]
  · rw [he, (pruneChildren_name _ _).2, (deepCloneTree_parts _).2]
  · simp only [List.headD_cons]
    rw [List.getElem?_eq_getElem hlt]
  · intro j hj
    have := contigAgree_agree (p0 :: p1 :: ps2) (lcaMinLen (p0 :: p1 :: ps2)) 0 j
      (by omega)
    simpa using this
  · rcases Nat.lt_or_ge cg (lcaMinLen (p0 :: p1 :: ps2)) with hlt2 | hge
    · right
      have := contigAgree_end (p0 :: p1 :: ps2) (lcaMinLen (p0 :: p1 :: ps2)) 0
        (by omega)
      rw [show cg - 1 + 1 = cg by omega]
      simpa using this
    · left
      omega
  · intro m hm
    rw [he] at hm
    rcases nodesOf_prune_sub _ _ m hm with h1 | h1
    · exact Or.inl h1
    · right
      rw [nodesOf_clone_fullPaths] at h1
      exact h1

/-- Witness for C3: tree `r/{p/{a,b}}` with the two selections `p/a` and
`p/b`; the LCA conclusion is obtained from the theorem at this input. -/
theorem prune_multi_selection_lca_witness :
    (2 ≤ (["/r/p/a", "/r/p/b"] : List String).length)
    ∧ ((["/r/p/a", "/r/p/b"] : List String).all fun s =>
        (findPath (.mk "r" "/r" (some [.mk "p" "/r/p"
          (some [.mk "a" "/r/p/a" (some []), .mk "b" "/r/p/b" (some [])])])) s).isSome) = true
    ∧ ∃ n2 k,
        findLowestCommonAncestor ((["/r/p/a", "/r/p/b"] : List String).filterMap
          fun s => findPath (.mk "r" "/r" (some [.mk "p" "/r/p"
            (some [.mk "a" "/r/p/a" (some []), .mk "b" "/r/p/b" (some [])])])) s) = some n2
        ∧ buildPrunedTree (.mk "r" "/r" (some [.mk "p" "/r/p"
            (some [.mk "a" "/r/p/a" (some []), .mk "b" "/r/p/b" (some [])])]))
            ["/r/p/a", "/r/p/b"]
          = pruneChildren (deepCloneTree n2) ["/r/p/a", "/r/p/b"]
        ∧ (buildPrunedTree (.mk "r" "/r" (some [.mk "p" "/r/p"
            (some [.mk "a" "/r/p/a" (some []), .mk "b" "/r/p/b" (some [])])]))
            ["/r/p/a", "/r/p/b"]).name = n2.name
        ∧ (buildPrunedTree (.mk "r" "/r" (some [.mk "p" "/r/p"
            (some [.mk "a" "/r/p/a" (some []), .mk "b" "/r/p/b" (some [])])]))
            ["/r/p/a", "/r/p/b"]).fullPath = n2.fullPath
        ∧ (((["/r/p/a", "/r/p/b"] : List String).filterMap
            fun s => findPath (.mk "r" "/r" (some [.mk "p" "/r/p"
              (some [.mk "a" "/r/p/a" (some []), .mk "b" "/r/p/b" (some [])])])) s).headD
            [])[k]? = some n2
        ∧ (∀ j, j ≤ k → agreeAt ((["/r/p/a", "/r/p/b"] : List String).filterMap
            fun s => findPath (.mk "r" "/r" (some [.mk "p" "/r/p"
              (some [.mk "a" "/r/p/a" (some []), .mk "b" "/r/p/b" (some [])])])) s) j = true)
        ∧ (k + 1 = lcaMinLen ((["/r/p/a", "/r/p/b"] : List String).filterMap
            fun s => findPath (.mk "r" "/r" (some [.mk "p" "/r/p"
              (some [.mk "a" "/r/p/a" (some []), .mk "b" "/r/p/b" (some [])])])) s)
          ∨ agreeAt ((["/r/p/a", "/r/p/b"] : List String).filterMap
              fun s => findPath (.mk "r" "/r" (some [.mk "p" "/r/p"
                (some [.mk "a" "/r/p/a" (some []), .mk "b" "/r/p/b" (some [])])])) s)
              (k + 1) = false)
        ∧ ∀ m, m ∈ nodesOf (buildPrunedTree (.mk "r" "/r" (some [.mk "p" "/r/p"
            (some [.mk "a" "/r/p/a" (some []), .mk "b" "/r/p/b" (some [])])]))
            ["/r/p/a", "/r/p/b"]) →
            m.fullPath = "" ∨ m.fullPath ∈ (nodesOf n2).map TreeNode.fullPath :=
  ⟨by decide, by decide,
    prune_multi_selection_lca
      (.mk "r" "/r" (some [.mk "p" "/r/p"
        (some [.mk "a" "/r/p/a" (some []), .mk "b" "/r/p/b" (some [])])]))
      ["/r/p/a", "/r/p/b"] (by decide) (by decide)⟩

/-- Claim C7: pruning operates only on deep clones — in this pure
embedding, rendering a deep clone is identical to rendering the original
(the clone is a full structural copy), and every `buildPrunedTree` result
is either the fresh `(empty)` node or the pruning of a deep clone of some
node, never the input tree itself (the `return root` fallback of the
source is unreachable because a lowest common ancestor always exists for a
nonempty path list). -/
theorem prune_operates_on_copy :
    (∀ (t : TreeNode) (pre : String) (b : Bool),
        renderTree (deepCloneTree t) pre b = renderTree t pre b)
    ∧ (∀ (root : TreeNode) (sels : List String),
        buildPrunedTree root sels = emptyNode
        ∨ ∃ nr, buildPrunedTree root sels = pruneChildren (deepCloneTree nr) sels) := by
  refine ⟨renderTree_clone, ?_⟩
  intro root sels
  cases hshape : sels.filterMap fun s => findPath root s with
  | nil => exact Or.inl (buildPrunedTree_empty root sels hshape)
  | cons p0 ps => exact Or.inr (buildPrunedTree_of_clone root sels p0 ps hshape)

/-- Claim C8 counterexample: for a tree and selections that determine no
common ancestor (no selection occurs in the tree, so there is no
root-to-selection path at all), `buildPrunedTree` does not fail — it
returns the `(empty)` placeholder tree. -/
theorem no_common_ancestor_counterexample :
    buildPrunedTree (.mk "root" "/r" (some [.mk "a" "/r/a" (some [])])) ["/q1", "/q2"]
      = TreeNode.mk "(empty)" "" (some []) := by rfl

/-- Claim C8 (amended): when no root-to-selection path can be found for
any selection, `buildPrunedTree` returns the `(empty)` placeholder node
rather than failing with an error. -/
theorem no_common_ancestor_returns_empty (root : TreeNode) (sels : List String)
    (h : (sels.filterMap fun s => findPath root s) = []) :
    buildPrunedTree root sels = TreeNode.mk "(empty)" "" (some []) :=
  buildPrunedTree_empty root sels h

/-- Witness for the amended C8 at a concrete input. -/
theorem no_common_ancestor_returns_empty_witness :
    ((["/q9"] : List String).filterMap fun s =>
        findPath (.mk "root" "/r" (some [])) s) = []
    ∧ buildPrunedTree (.mk "root" "/r" (some [])) ["/q9"]
        = TreeNode.mk "(empty)" "" (some []) :=
  ⟨rfl, no_common_ancestor_returns_empty (.mk "root" "/r" (some [])) ["/q9"] rfl⟩

mutual

theorem childrenPresent_build (fs : FsEntry) (dirPath : String) (pats : List String) :
    childrenPresent (buildTree fs dirPath pats) = true := by
  match fs with
  | .file nm => simp [buildTree, childrenPresent, forestChildrenPresent]
  | .dir nm entries =>
    have h := forestChildrenPresent_build entries dirPath pats
    simp [buildTree, childrenPresent, h]

theorem forestChildrenPresent_build (es : List FsEntry) (dirPath : String)
    (pats : List String) :
    forestChildrenPresent (buildForest es dirPath pats) = true := by
  match es with
  | [] => simp [buildForest, forestChildrenPresent]
  | e :: es =>
    have h1 := childrenPresent_build e (pathJoin dirPath e.name) pats
    have h2 := forestChildrenPresent_build es dirPath pats
    by_cases hx : isExcluded pats e.name (pathJoin dirPath e.name) = true
    · simp [buildForest, hx, h2]
    · simp [buildForest, hx, forestChildrenPresent, h1, h2]

end

/-- Claim C10: every tree produced by `buildTree`, `deepCloneTree` or
`buildPrunedTree` has the `children` field present on every node; in
particular a file entry becomes a node with `children` equal to the empty
array, and `deepCloneTree` normalizes an absent `children` field to the
empty array. -/
theorem children_always_present :
    (∀ (fs : FsEntry) (dirPath : String) (pats : List String),
        childrenPresent (buildTree fs dirPath pats) = true)
    ∧ (∀ t : TreeNode, childrenPresent (deepCloneTree t) = true)
    ∧ (∀ (root : TreeNode) (sels : List String),
        childrenPresent (buildPrunedTree root sels) = true)
    ∧ (∀ (nm dirPath : String) (pats : List String),
        buildTree (.file nm) dirPath pats = .mk (basenameOr dirPath) dirPath (some []))
    ∧ (∀ n p : String, deepCloneTree (.mk n p none) = .mk n p (some [])) := by
  refine ⟨childrenPresent_build, childrenPresent_clone, ?_, ?_, ?_⟩
  · intro root sels
    cases hshape : sels.filterMap fun s => findPath root s with
    | nil =>
      rw [buildPrunedTree_empty root sels hshape]
      simp [emptyNode, childrenPresent, forestChildrenPresent]
    | cons p0 ps =>
      rcases buildPrunedTree_of_clone root sels p0 ps hshape with ⟨nr, he⟩
      rw [he]
      exact childrenPresent_prune _ _ (childrenPresent_clone nr)
  · intro nm dirPath pats
    simp [buildTree]
  · intro n p
    simp [deepCloneTree]

end FolderTree
